import Mathlib

/-!
Verification of the sherlock-gpui indexing, caching and ranking engine.

Shallow embedding of the relevant Rust functions:
* `fuzzy_match` / `sequential_check`   (src/launcher/children/mod.rs)
* `parse_priority`, `file_has_changed`, `get_desktop_files`
                                        (src/loader/application_loader.rs)
* `BinaryCache::read`                   (src/utils/cache.rs)
* `CounterReader::increment`, `AppData` (src/loader/utils.rs)
* `filter_and_sort`                     (src/ui/main_window/mod.rs)

Byte strings are modelled as `List Nat`, `f32` values by exact rationals,
file-system state by explicit maps from paths to optional byte contents.
While-loops are modelled by fuel-based recursion; the fuel is always
sufficient at the call sites (it bounds the number of loop iterations of
the Rust original), which the loop lemmas below make precise.
-/

namespace Sherlock

/-- Byte strings (the Rust code operates on `&[u8]`). -/
abbrev Bytes := List Nat

/-- Model of `memchr::memchr b l`: index of the first occurrence of byte `b`
in `l`, or `none` when `b` does not occur. -/
def memchr (b : Nat) : Bytes → Option Nat
  | [] => none
  | x :: xs => if x = b then some 0 else (memchr b xs).map (· + 1)

/-- Model of the inner scanning loop of `sequential_check`
(src/launcher/children/mod.rs:237-244): starting at index `tIdx`, scan `rem`
successive indices for byte `c`; return the first index holding `c`.
The Rust loop runs while `t_idx < limit`, so `rem = limit - tIdx`. -/
def scanForAux (c : Nat) (target : Bytes) : Nat → Nat → Option Nat
  | _, 0 => none
  | tIdx, rem + 1 =>
    if target.getD tIdx 0 = c then some tIdx
    else scanForAux c target (tIdx + 1) rem

/-- Scan of the half-open index interval `[tIdx, limit)` of `target` for
byte `c`, as performed by the inner loop of `sequential_check`. -/
def scanFor (c : Nat) (target : Bytes) (tIdx limit : Nat) : Option Nat :=
  scanForAux c target tIdx (limit - tIdx)

/-- Model of the outer loop of `sequential_check`
(src/launcher/children/mod.rs:232-250): for each remaining pattern byte,
look for it in the window of `window` bytes starting right after the
haystack position where the previous pattern byte matched. -/
def seqCheckAux (target : Bytes) (window : Nat) : Bytes → Nat → Bool
  | [], _ => true
  | c :: rest, tIdx =>
    match scanFor c target tIdx (min (tIdx + window) target.length) with
    | some q => seqCheckAux target window rest (q + 1)
    | none => false

/-- Model of `sequential_check` (src/launcher/children/mod.rs:227-253):
`pattern[0]` was already matched by `memchr` at `target[0]`; every later
pattern byte must be found within `window` bytes after the previous match. -/
def sequential_check (pattern target : Bytes) (window : Nat) : Bool :=
  seqCheckAux target window (pattern.drop 1) 1

/-- Model of the `while let Some(pos) = memchr(...)` loop of `fuzzy_match`
(src/launcher/children/mod.rs:212-221): try an anchor attempt at each
occurrence of the pattern head byte `pb`, sliding the current target
forward past a failed anchor. Each iteration strictly shrinks the current
target, so `fuel = cur.length` iterations always suffice. -/
def fuzzyLoop (pb : Nat) (p : Bytes) : Nat → Bytes → Bool
  | 0, _ => false
  | fuel + 1, cur =>
    match memchr pb cur with
    | none => false
    | some pos =>
      if sequential_check p (cur.drop pos) 5 then true
      else if cur.length ≤ pos + 1 then false
      else fuzzyLoop pb p fuel (cur.drop (pos + 1))

/-- Model of `fuzzy_match` (src/launcher/children/mod.rs:196-225).
Haystack `t` and pattern `p` are pre-lowercased byte strings. -/
def fuzzy_match (t p : Bytes) : Bool :=
  match p with
  | [] => true
  | pb :: _ =>
    match t with
    | [] => false
    | _ :: _ => fuzzyLoop pb p t.length t

example : fuzzy_match [1, 2, 3, 4] [] = true := by decide
example : fuzzy_match [] [1] = false := by decide
example : fuzzy_match [104, 101, 108, 108, 111] [104, 108, 111] = true := by decide
example : fuzzy_match [1, 9, 9, 9, 9, 9, 2] [1, 2] = false := by decide
example : fuzzy_match [1, 9, 9, 9, 9, 2] [1, 2] = true := by decide
example : fuzzy_match [1, 0, 1, 2] [1, 2] = true := by decide

theorem memchr_none (b : Nat) : ∀ l : Bytes, memchr b l = none →
    ∀ i, ∀ hi : i < l.length, l.get ⟨i, hi⟩ ≠ b := by
  intro l
  induction l with
  | nil => intro _ i hi; simp at hi
  | cons x xs ih =>
    intro h i hi
    simp only [memchr] at h
    by_cases hx : x = b
    · simp [hx] at h
    · rw [if_neg hx] at h
      have hxs : memchr b xs = none := by
        cases hmx : memchr b xs with
        | none => rfl
        | some q => rw [hmx] at h; simp at h
      match i with
      | 0 => simpa using hx
      | i + 1 =>
        have hi2 : i < xs.length := by
          have := hi
          simp only [List.length_cons] at this
          omega
        simpa using ih hxs i hi2

theorem memchr_some (b : Nat) : ∀ (l : Bytes) (pos : Nat), memchr b l = some pos →
    ∃ hp : pos < l.length, l.get ⟨pos, hp⟩ = b ∧
      ∀ j, ∀ hj : j < l.length, j < pos → l.get ⟨j, hj⟩ ≠ b := by
  intro l
  induction l with
  | nil => intro pos h; simp [memchr] at h
  | cons x xs ih =>
    intro pos h
    simp only [memchr] at h
    by_cases hx : x = b
    · rw [if_pos hx] at h
      have hp0 : pos = 0 := by
        have := Option.some.inj h
        omega
      subst hp0
      refine ⟨by simp, by simpa using hx, ?_⟩
      intro j hj hj0
      omega
    · rw [if_neg hx] at h
      cases hmx : memchr b xs with
      | none => rw [hmx] at h; simp at h
      | some q =>
        rw [hmx] at h
        have hpq : pos = q + 1 := by
          simp only [Option.map_some'] at h
          have := Option.some.inj h
          omega
        subst hpq
        obtain ⟨hqlen, hqget, hqmin⟩ := ih q hmx
        refine ⟨by simpa using Nat.succ_lt_succ hqlen, by simpa using hqget, ?_⟩
        intro j hj hjq
        match j with
        | 0 => simpa using hx
        | j + 1 =>
          have hj2 : j < xs.length := by
            have := hj
            simp only [List.length_cons] at this
            omega
          simpa using hqmin j hj2 (by omega)

theorem fuzzyLoop_iff (pb : Nat) (p : Bytes) :
    ∀ (fuel : Nat) (cur : Bytes), cur.length ≤ fuel →
      (fuzzyLoop pb p fuel cur = true ↔
        ∃ i, ∃ hi : i < cur.length, cur.get ⟨i, hi⟩ = pb ∧
          sequential_check p (cur.drop i) 5 = true) := by
  intro fuel
  induction fuel with
  | zero =>
    intro cur hlen
    have hnil : cur = [] := List.length_eq_zero.mp (Nat.le_zero.mp hlen)
    subst hnil
    simp [fuzzyLoop]
  | succ fuel ih =>
    intro cur hlen
    cases hm : memchr pb cur with
    | none =>
      simp only [fuzzyLoop, hm]
      constructor
      · intro h; exact absurd h (by simp)
      · rintro ⟨i, hi, hget, _⟩
        exact absurd hget (memchr_none pb cur hm i hi)
    | some pos =>
      obtain ⟨hpos, hget, hmin⟩ := memchr_some pb cur pos hm
      have hstep : fuzzyLoop pb p (fuel + 1) cur =
          (if sequential_check p (cur.drop pos) 5 then true
           else if cur.length ≤ pos + 1 then false
           else fuzzyLoop pb p fuel (cur.drop (pos + 1))) := by
        simp only [fuzzyLoop, hm]
      by_cases hsc : sequential_check p (cur.drop pos) 5 = true
      · rw [hstep, if_pos hsc]
        exact iff_of_true rfl ⟨pos, hpos, hget, hsc⟩
      · by_cases hbreak : cur.length ≤ pos + 1
        · rw [hstep, if_neg hsc, if_pos hbreak]
          refine iff_of_false (by simp) ?_
          rintro ⟨i, hi, hgeti, hsci⟩
          rcases Nat.lt_trichotomy i pos with hlt | heq | hgt
          · exact hmin i hi hlt hgeti
          · subst heq; exact hsc hsci
          · omega
        · have hbreak2 : pos + 1 < cur.length := Nat.lt_of_not_le hbreak
          have hlen2 : (cur.drop (pos + 1)).length ≤ fuel := by
            simp only [List.length_drop]; omega
          rw [hstep, if_neg hsc, if_neg hbreak, ih (cur.drop (pos + 1)) hlen2]
          constructor
          · rintro ⟨j, hj, hgetj, hscj⟩
            have hj2 : pos + 1 + j < cur.length := by
              simp only [List.length_drop] at hj; omega
            refine ⟨pos + 1 + j, hj2, ?_, ?_⟩
            · rw [← hgetj]
              simp [List.get_eq_getElem, List.getElem_drop]
            · rw [List.drop_drop] at hscj
              exact hscj
          · rintro ⟨i, hi, hgeti, hsci⟩
            have hipos : pos + 1 ≤ i := by
              rcases Nat.lt_trichotomy i pos with hlt | heq | hgt
              · exact absurd hgeti (hmin i hi hlt)
              · subst heq; exact absurd hsci hsc
              · omega
            have hj : i - (pos + 1) < (cur.drop (pos + 1)).length := by
              simp only [List.length_drop]; omega
            refine ⟨i - (pos + 1), hj, ?_, ?_⟩
            · rw [← hgeti]
              simp only [List.get_eq_getElem, List.getElem_drop]
              congr 1
              omega
            · rw [List.drop_drop]
              have : pos + 1 + (i - (pos + 1)) = i := by omega
              rw [this]
              exact hsci

theorem fuzzy_match_anchor_iff (t p : Bytes) :
    fuzzy_match t p = true ↔
      (p = [] ∨ (p ≠ [] ∧ t ≠ [] ∧ ∃ i, ∃ hi : i < t.length,
        t.get ⟨i, hi⟩ = p.headI ∧ sequential_check p (t.drop i) 5 = true)) := by
  cases p with
  | nil => simp [fuzzy_match]
  | cons pb pr =>
    cases t with
    | nil => simp [fuzzy_match]
    | cons tb tr =>
      simp only [fuzzy_match]
      rw [fuzzyLoop_iff pb (pb :: pr) (tb :: tr).length (tb :: tr) (Nat.le_refl _)]
      simp [List.headI]

/-- C1: `fuzzy_match h p` returns true when `p` is empty; returns false when
`h` is empty and `p` is non-empty; otherwise it returns true iff some
occurrence of the first byte of `p` in `h` starts a successful anchor
attempt, where an anchor attempt (`sequential_check` with window size 5)
succeeds exactly when each remaining pattern byte is found, in order,
within the bounded lookahead window of 5 haystack bytes following the
position where the previous pattern byte matched, and a failed anchor
attempt restarts at the next occurrence of the first pattern byte. -/
theorem fuzzy_match_window_spec (t p : Bytes) :
    fuzzy_match t p = true ↔
      (p = [] ∨ (p ≠ [] ∧ t ≠ [] ∧ ∃ i, ∃ hi : i < t.length,
        t.get ⟨i, hi⟩ = p.headI ∧ sequential_check p (t.drop i) 5 = true)) :=
  fuzzy_match_anchor_iff t p

theorem seqCheckAux_contig : ∀ (cs rest target : Bytes) (tIdx : Nat),
    target.drop tIdx = cs ++ rest → seqCheckAux target 5 cs tIdx = true := by
  intro cs
  induction cs with
  | nil => intro rest target tIdx _; simp [seqCheckAux]
  | cons c cs ih =>
    intro rest target tIdx hdrop
    have hlt : tIdx < target.length := by
      by_contra hge
      rw [List.drop_eq_nil_of_le (Nat.le_of_not_lt hge)] at hdrop
      exact absurd hdrop.symm (by simp)
    have hgetd : target.getD tIdx 0 = c := by
      have h0 : target[tIdx]? = some c := by
        have h1 := List.getElem?_drop target tIdx 0
        rw [Nat.add_zero] at h1
        rw [← h1, hdrop]
        simp
      rw [List.getD_eq_getElem?_getD, h0]
      rfl
    have hscan : scanFor c target tIdx (min (tIdx + 5) target.length) = some tIdx := by
      obtain ⟨r, hr⟩ : ∃ r, min (tIdx + 5) target.length - tIdx = r + 1 :=
        ⟨min (tIdx + 5) target.length - tIdx - 1, by omega⟩
      rw [scanFor, hr]
      simp only [scanForAux]
      rw [if_pos hgetd]
    have hdrop2 : target.drop (tIdx + 1) = cs ++ rest := by
      have h2 : (target.drop tIdx).drop 1 = target.drop (tIdx + 1) := by
        rw [List.drop_drop]
      rw [← h2, hdrop]
      rfl
    simp only [seqCheckAux, hscan]
    exact ih rest target (tIdx + 1) hdrop2

/-- C10: a contiguous occurrence of the non-empty pattern `p` in the
haystack `t` always makes `fuzzy_match t p` return true: every byte of the
occurrence is found at distance 1, well within the 5-byte lookahead
window. -/
theorem fuzzy_match_substring (t p s1 s2 : Bytes) (hp : p ≠ [])
    (ht : t = s1 ++ p ++ s2) : fuzzy_match t p = true := by
  obtain ⟨pb, pr, rfl⟩ : ∃ pb pr, p = pb :: pr := by
    cases p with
    | nil => exact absurd rfl hp
    | cons pb pr => exact ⟨pb, pr, rfl⟩
  have ht2 : t = s1 ++ ((pb :: pr) ++ s2) := by rw [ht, List.append_assoc]
  apply (fuzzy_match_anchor_iff t (pb :: pr)).mpr
  right
  have hlen : s1.length < t.length := by
    rw [ht2]
    simp only [List.length_append, List.length_cons]
    omega
  refine ⟨by simp, by rw [ht2]; simp, s1.length, hlen, ?_, ?_⟩
  · simp only [List.get_eq_getElem, ht2]
    rw [List.getElem_append_right (Nat.le_refl s1.length)]
    simp [List.headI]
  · have hdropt : t.drop s1.length = (pb :: pr) ++ s2 := by
      rw [ht2, List.drop_left]
    rw [hdropt]
    apply seqCheckAux_contig pr s2 ((pb :: pr) ++ s2) 1
    rfl

/-- C10 witness: the pattern `[5, 6, 7]` occurs contiguously in
`[1, 5, 6, 7, 2]`, and `fuzzy_match` accepts it. -/
theorem fuzzy_match_substring_witness :
    fuzzy_match [1, 5, 6, 7, 2] [5, 6, 7] = true :=
  fuzzy_match_substring [1, 5, 6, 7, 2] [5, 6, 7] [1] [2] (by decide) (by decide)

/-- Model of `parse_priority` (src/loader/application_loader.rs:297-303); the
`f32` arithmetic is modelled by exact rational arithmetic. The function is
pure by construction: it is a plain function of its three arguments. -/
def parse_priority (priority : ℚ) (count : Nat) (decimals : ℤ) : ℚ :=
  if count = 0 then priority + 99 / 100
  else priority + 99 / 100 - (count : ℚ) * (10 : ℚ) ^ (-decimals)

/-- C2: the priority computation returns exactly `base + 0.99` when the
usage count is zero, and exactly `base + 0.99 - count * 10 ^ (-decimals)`
when the usage count is positive. -/
theorem parse_priority_spec (priority : ℚ) (count : Nat) (decimals : ℤ) :
    (count = 0 → parse_priority priority count decimals = priority + 99 / 100) ∧
    (0 < count → parse_priority priority count decimals =
      priority + 99 / 100 - (count : ℚ) * (10 : ℚ) ^ (-decimals)) := by
  constructor
  · intro h
    simp [parse_priority, h]
  · intro h
    simp [parse_priority, Nat.pos_iff_ne_zero.mp h]

/-- C2 witness: concrete evaluations of both branches. -/
theorem parse_priority_spec_witness :
    parse_priority 1 0 2 = 1 + 99 / 100 ∧
    parse_priority 1 3 1 = 1 + 99 / 100 - (3 : ℚ) * (10 : ℚ) ^ (-(1 : ℤ)) :=
  ⟨(parse_priority_spec 1 0 2).1 rfl, (parse_priority_spec 1 3 1).2 (by norm_num)⟩

/-- Model of `file_has_changed` (src/loader/application_loader.rs:380-386);
modification times are modelled as `Option Nat`, `none` meaning the mtime
is unavailable. -/
def file_has_changed (mt1 mt2 : Option Nat) : Bool :=
  match mt1, mt2 with
  | some t1, some t2 =>
    if t1 > t2 then true
    else if t1 < t2 then false
    else true
  | _, _ => true

/-- C3 counterexample: with equal available modification times (5 and 5)
the function returns true although 5 is not strictly newer than 5, so
"returns true iff A's mtime is strictly newer than B's" fails. -/
theorem file_has_changed_counterexample :
    ¬ (∀ a b : Nat, file_has_changed (some a) (some b) = true ↔ a > b) := by
  intro h
  have h5 : (5 : Nat) > 5 := (h 5 5).mp (by decide)
  omega

/-- C3 amended: `file_has_changed` returns false iff both modification
times are available and the trigger file's is strictly older than the
cache's; it returns true when strictly newer, when the times are equal,
and when either modification time is unavailable. -/
theorem file_has_changed_spec (mt1 mt2 : Option Nat) :
    file_has_changed mt1 mt2 = false ↔
      ∃ a b, mt1 = some a ∧ mt2 = some b ∧ a < b := by
  cases mt1 with
  | none => simp [file_has_changed]
  | some a =>
    cases mt2 with
    | none => simp [file_has_changed]
    | some b =>
      by_cases hab : a > b
      · rw [file_has_changed, if_pos hab]
        simp only [Option.some.injEq]
        constructor
        · intro h
          exact absurd h (by simp)
        · rintro ⟨x, y, rfl, rfl, hxy⟩
          omega
      · by_cases hba : a < b
        · rw [file_has_changed, if_neg hab, if_pos hba]
          exact iff_of_true rfl ⟨a, b, rfl, rfl, hba⟩
        · rw [file_has_changed, if_neg hab, if_neg hba]
          simp only [Option.some.injEq]
          constructor
          · intro h
            exact absurd h (by simp)
          · rintro ⟨x, y, rfl, rfl, hxy⟩
            omega

/-- Error kinds of the cache primitive (src/utils/errors.rs as used by
src/utils/cache.rs). -/
inductive ErrorKind where
  | fileReadError
  | fileWriteError
  | serializationError
deriving DecidableEq

/-- File-system state: a map from paths (modelled as naturals) to the byte
contents of the files that exist. -/
abbrev FileSys := Nat → Option Bytes

/-- Model of `BinaryCache::read` (src/utils/cache.rs:33-54): read the raw
bytes at `path` (missing or unreadable file surfaces a FileReadError); try
to decode them as a `T`; on decode failure delete the file and return the
default value. The result is the file system after the call paired with
the returned value. -/
def BinaryCache.read {T : Type} (fs : FileSys) (decode : Bytes → Option T)
    (dflt : T) (path : Nat) : FileSys × Except ErrorKind T :=
  match fs path with
  | none => (fs, Except.error ErrorKind.fileReadError)
  | some bytes =>
    match decode bytes with
    | some v => (fs, Except.ok v)
    | none => (fun q => if q = path then none else fs q, Except.ok dflt)

/-- C4: for every type `T` with a default value, `BinaryCache::read`
surfaces a FileReadError when the file at `path` is missing, and when the
bytes are read but fail to decode it deletes the file and returns
`Ok(default)`: afterwards the file is no longer present and the caller
receives the default value, never a decode error. -/
theorem binaryCache_read_spec :
    (∀ (T : Type) (fs : FileSys) (decode : Bytes → Option T) (dflt : T) (path : Nat),
      fs path = none →
      BinaryCache.read fs decode dflt path = (fs, Except.error ErrorKind.fileReadError)) ∧
    (∀ (T : Type) (fs : FileSys) (decode : Bytes → Option T) (dflt : T) (path : Nat)
      (bytes : Bytes), fs path = some bytes → decode bytes = none →
      (BinaryCache.read fs decode dflt path).2 = Except.ok dflt ∧
      (BinaryCache.read fs decode dflt path).1 path = none) := by
  constructor
  · intro T fs decode dflt path h
    simp [BinaryCache.read, h]
  · intro T fs decode dflt path bytes h hd
    simp [BinaryCache.read, h, hd]

/-- C4 witness: reading a missing path surfaces a FileReadError, and
reading garbage bytes that fail to decode returns the default value 7 and
leaves the file deleted. -/
theorem binaryCache_read_spec_witness :
    BinaryCache.read (fun _ => none) (fun _ => (none : Option Nat)) 7 3 =
      ((fun _ => none), Except.error ErrorKind.fileReadError) ∧
    (BinaryCache.read (fun p => if p = 0 then some [42] else none)
      (fun _ => (none : Option Nat)) 7 0).2 = Except.ok 7 ∧
    (BinaryCache.read (fun p => if p = 0 then some [42] else none)
      (fun _ => (none : Option Nat)) 7 0).1 0 = none := by
  refine ⟨?_, ?_⟩
  · exact binaryCache_read_spec.1 Nat (fun _ => none) (fun _ => none) 7 3 rfl
  · exact binaryCache_read_spec.2 Nat (fun p => if p = 0 then some [42] else none)
      (fun _ => none) 7 0 [42] rfl rfl

/-- Usage-counter table: an association list from executable identifier to
invocation count, one entry per key (models the Rust `HashMap<String, u32>`
of src/loader/utils.rs). -/
abbrev CounterTable := List (String × Nat)

/-- Rank of value `v` among the sorted distinct values `vs`: one plus the
number of distinct values strictly below `v`. This is the rank the
`BTreeSet` + `enumerate` construction of `CounterReader::increment`
(src/loader/utils.rs:256-263) assigns to each existing count value. -/
def rankAmong (vs : List Nat) (v : Nat) : Nat :=
  (vs.dedup.filter (fun w => w < v)).length + 1

/-- Model of the rank-compression pass of `CounterReader::increment`
(src/loader/utils.rs:265-269): every entry's count is rewritten to its
1-based rank among the distinct existing counts; the lookup in
`unique_values` succeeds exactly for values present in the table. -/
def rankCompress (t : CounterTable) : CounterTable :=
  t.map (fun e =>
    (e.1, if e.2 ∈ t.map Prod.snd then rankAmong (t.map Prod.snd) e.2 else e.2))

/-- Model of `*content.entry(key.to_string()).or_insert(0) += 1`
(src/loader/utils.rs:271): add one to the entry of `key`, first inserting
it with count 0 when absent. -/
def bumpKey (t : CounterTable) (key : String) : CounterTable :=
  if key ∈ t.map Prod.fst then
    t.map (fun e => if e.1 = key then (e.1, e.2 + 1) else e)
  else t ++ [(key, 1)]

/-- Pure table transformation performed by a successful
`CounterReader::increment` (src/loader/utils.rs:254-274): rank-compress
all stored counts, then add one to the target key. -/
def incrementTable (t : CounterTable) (key : String) : CounterTable :=
  bumpKey (rankCompress t) key

/-- Model of `CounterReader::increment` including its file access: `file`
is the persisted table, `none` when the counts file does not exist — in
that case `BinaryCache::read` (src/utils/cache.rs:38-43) surfaces a
FileReadError which the `?` operator propagates out of `increment`. -/
def CounterReader.increment (file : Option CounterTable) (key : String) :
    Except ErrorKind CounterTable :=
  match file with
  | none => Except.error ErrorKind.fileReadError
  | some t => Except.ok (incrementTable t key)

/-- Stored count values of a table, as a finite set. -/
def valueSet (t : CounterTable) : Finset Nat := (t.map Prod.snd).toFinset

/-- C7 counterexample: with no persisted counts file, `increment` returns
a FileReadError instead of succeeding with the key stored at count 1. -/
theorem counter_increment_missing_counterexample :
    CounterReader.increment none "firefox" = Except.error ErrorKind.fileReadError := rfl

/-- C7 amended: when the counts file does not exist, `increment` fails
with the FileReadError propagated from `BinaryCache::read`; when the file
exists and holds the empty table, the incremented key is stored with
count 1 and the call succeeds. -/
theorem counter_increment_missing_spec (key : String) :
    CounterReader.increment none key = Except.error ErrorKind.fileReadError ∧
    CounterReader.increment (some []) key = Except.ok [(key, 1)] :=
  ⟨rfl, rfl⟩

theorem rankAmong_of_ones (vs : List Nat) (hone : ∀ w ∈ vs, w = 1) :
    rankAmong vs 1 = 1 := by
  unfold rankAmong
  have hfil : vs.dedup.filter (fun w => w < 1) = [] := by
    rw [List.filter_eq_nil_iff]
    intro w hw
    have hw1 : w = 1 := hone w (List.mem_dedup.mp hw)
    simp [hw1]
  rw [hfil]
  rfl

theorem rankCompress_ones (t : CounterTable) (hall : ∀ e ∈ t, e.2 = 1) :
    rankCompress t = t := by
  unfold rankCompress
  have h : ∀ e ∈ t,
      (e.1, if e.2 ∈ t.map Prod.snd then rankAmong (t.map Prod.snd) e.2 else e.2)
        = e := by
    intro e he
    have h2 : e.2 = 1 := hall e he
    have hmem : e.2 ∈ t.map Prod.snd := List.mem_map.mpr ⟨e, he, rfl⟩
    rw [if_pos hmem]
    have hone : ∀ w ∈ t.map Prod.snd, w = 1 := by
      intro w hw
      obtain ⟨e2, he2, hw2⟩ := List.mem_map.mp hw
      rw [← hw2]
      exact hall e2 he2
    rw [h2, rankAmong_of_ones (t.map Prod.snd) hone, ← h2]
  rw [List.map_congr_left h]
  simp

theorem incrementTable_fresh (t : CounterTable) (key : String)
    (hall : ∀ e ∈ t, e.2 = 1) (hnew : key ∉ t.map Prod.fst) :
    incrementTable t key = t ++ [(key, 1)] := by
  unfold incrementTable
  rw [rankCompress_ones t hall]
  unfold bumpKey
  rw [if_neg hnew]

theorem foldl_increment_ones (ks : List String) :
    ∀ acc : CounterTable, (∀ e ∈ acc, e.2 = 1) →
    (∀ k ∈ ks, k ∉ acc.map Prod.fst) → ks.Nodup →
    ks.foldl (fun t key => incrementTable t key) acc
      = acc ++ ks.map (fun k => (k, 1)) := by
  induction ks with
  | nil => intro acc _ _ _; simp
  | cons k ks ih =>
    intro acc hall hdisj hnodup
    have hknotin : k ∉ acc.map Prod.fst := hdisj k (List.mem_cons_self k ks)
    rw [List.foldl_cons, incrementTable_fresh acc k hall hknotin]
    have hall2 : ∀ e ∈ acc ++ [(k, 1)], e.2 = 1 := by
      intro e he
      rcases List.mem_append.mp he with h1 | h2
      · exact hall e h1
      · simp only [List.mem_singleton] at h2
        rw [h2]
    have hdisj2 : ∀ k2 ∈ ks, k2 ∉ (acc ++ [(k, 1)]).map Prod.fst := by
      intro k2 hk2
      rw [List.map_append, List.mem_append]
      rintro (h1 | h2)
      · exact hdisj k2 (List.mem_cons_of_mem k hk2) h1
      · simp only [List.map_cons, List.map_nil, List.mem_singleton] at h2
        subst h2
        exact (List.nodup_cons.mp hnodup).1 hk2
    rw [ih (acc ++ [(k, 1)]) hall2 hdisj2 (List.nodup_cons.mp hnodup).2]
    rw [List.append_assoc]
    rfl

theorem foldl_increment_distinct (ks : List String) (hk : ks.Nodup) :
    ks.foldl (fun t key => incrementTable t key) [] = ks.map (fun k => (k, 1)) := by
  have h := foldl_increment_ones ks [] (by simp) (by simp) hk
  simpa using h

theorem toFinset_const_ones (l : List String) :
    ((l.map fun _ => (1 : Nat)).toFinset) = if l = [] then ∅ else {1} := by
  induction l with
  | nil => simp
  | cons x xs ih =>
    simp only [List.map_cons, List.toFinset_cons, ih]
    by_cases hxs : xs = []
    · simp [hxs]
    · rw [if_neg hxs, if_neg (by simp)]
      simp

theorem rankAmong_le (vs : List Nat) (v : Nat) (hv : v ∈ vs) :
    rankAmong vs v ≤ vs.dedup.length := by
  unfold rankAmong
  have hlt : (vs.dedup.filter (fun w => w < v)).length < vs.dedup.length := by
    apply List.length_filter_lt_length_iff_exists.mpr
    exact ⟨v, List.mem_dedup.mpr hv, by simp⟩
  omega

theorem rankCompress_value_le (t : CounterTable) (e : String × Nat)
    (he : e ∈ rankCompress t) : e.2 ≤ (t.map Prod.snd).dedup.length := by
  unfold rankCompress at he
  obtain ⟨e0, he0, heq⟩ := List.mem_map.mp he
  have hmem : e0.2 ∈ t.map Prod.snd := List.mem_map.mpr ⟨e0, he0, rfl⟩
  rw [← heq]
  simp only [if_pos hmem]
  exact rankAmong_le _ _ hmem

theorem incrementTable_value_bound (t : CounterTable) (key : String) (v : Nat)
    (hv : v ∈ (incrementTable t key).map Prod.snd) :
    v ≤ (t.map Prod.snd).dedup.length + 1 := by
  unfold incrementTable bumpKey at hv
  by_cases hmem : key ∈ (rankCompress t).map Prod.fst
  · rw [if_pos hmem, List.map_map] at hv
    obtain ⟨e, he, heq⟩ := List.mem_map.mp hv
    have hle : e.2 ≤ (t.map Prod.snd).dedup.length := rankCompress_value_le t e he
    by_cases hek : e.1 = key
    · have hveq : v = e.2 + 1 := by
        rw [← heq]
        simp [hek]
      omega
    · have hveq : v = e.2 := by
        rw [← heq]
        simp [hek]
      omega
  · rw [if_neg hmem, List.map_append, List.mem_append] at hv
    rcases hv with h1 | h2
    · obtain ⟨e, he, heq⟩ := List.mem_map.mp h1
      have hle : e.2 ≤ (t.map Prod.snd).dedup.length := rankCompress_value_le t e he
      omega
    · simp only [List.map_cons, List.map_nil, List.mem_singleton] at h2
      omega

/-- C6: `increment` first rewrites each stored count to its 1-based rank
among the sorted distinct stored values and then adds 1 to the target key
(inserting it at 0 first when absent); consequently, starting from the
empty table, after N increments with pairwise-distinct keys the set of
stored values is `{1, ..., k}` for some `k ≤ N`, and a single `increment`
never produces a stored value exceeding the number of distinct
previously-stored values plus one. -/
theorem counter_increment_invariant (ks : List String) (hk : ks.Nodup) :
    (∃ k, k ≤ ks.length ∧
      valueSet (ks.foldl (fun t key => incrementTable t key) []) = Finset.Icc 1 k) ∧
    (∀ (t : CounterTable) (key : String) (v : Nat),
      v ∈ (incrementTable t key).map Prod.snd →
      v ≤ (t.map Prod.snd).dedup.length + 1) := by
  constructor
  · rw [foldl_increment_distinct ks hk]
    cases ks with
    | nil =>
      refine ⟨0, by simp, ?_⟩
      simp [valueSet]
    | cons k ks =>
      refine ⟨1, by simp, ?_⟩
      rw [valueSet, List.map_map]
      have h := toFinset_const_ones (k :: ks)
      rw [if_neg (by simp)] at h
      rw [show ((fun e => Prod.snd e) ∘ fun k2 => (k2, 1)) = (fun _ => (1 : Nat)) from rfl]
      rw [h, Finset.Icc_self]
  · intro t key v hv
    exact incrementTable_value_bound t key v hv

/-- C6 witness: two increments with the distinct keys "a" and "b" starting
from the empty table leave the value set `{1}`. -/
theorem counter_increment_invariant_witness :
    ∃ k, k ≤ (["a", "b"] : List String).length ∧
      valueSet ((["a", "b"] : List String).foldl
        (fun t key => incrementTable t key) []) = Finset.Icc 1 k :=
  (counter_increment_invariant ["a", "b"] (by decide)).1

/-- Secondary application action (src/loader/utils.rs:26-34). -/
structure ApplicationAction where
  name : Option String
  exec : Option String
  icon : Option String
  method : String
  exit : Bool
deriving DecidableEq

/-- Runtime input variable (src/loader/utils.rs:186-191). -/
inductive ExecVariable where
  | stringInput (s : String)
  | passwordInput (s : String)
deriving DecidableEq

/-- Candidate record (src/loader/utils.rs:53-70); the `f32` priority is
modelled as an exact rational, paths as strings. -/
structure AppData where
  name : Option String
  exec : Option String
  search_string : String
  priority : Option ℚ
  icon : Option String
  desktop_file : Option String
  actions : List ApplicationAction
  vars : List ExecVariable
  terminal : Bool
deriving DecidableEq

/-- Model of the derived `PartialEq` of `AppData` (src/loader/utils.rs:53):
field-wise structural equality over all nine fields. -/
def appDataEq (a b : AppData) : Bool := decide (a = b)

/-- Model of the manual `Hash` impl of `AppData`
(src/loader/utils.rs:72-78): only `exec` and `desktop_file` feed the hash. -/
def appDataHashKey (a : AppData) : Option String × Option String :=
  (a.exec, a.desktop_file)

/-- Record used in the C9 counterexample. -/
def appA : AppData :=
  ⟨some "Firefox", some "firefox %u", "firefox", none, none,
    some "f.desktop", [], [], false⟩

/-- Record agreeing with `appA` on `(exec, desktop_file)` but not on
`name`. -/
def appB : AppData := { appA with name := some "Browser" }

/-- C9 counterexample: `appA` and `appB` have equal `(exec, desktop_file)`
pairs yet compare unequal under the derived `PartialEq`, refuting the
claim that equality is decided solely by that pair. -/
theorem appData_eq_counterexample :
    ¬ (∀ a b : AppData, appDataEq a b = true ↔
        (a.exec, a.desktop_file) = (b.exec, b.desktop_file)) := by
  intro h
  have h2 : appDataEq appA appB = true := (h appA appB).mpr (by decide)
  have h3 : appDataEq appA appB = false := by decide
  rw [h2] at h3
  exact Bool.noConfusion h3

/-- C9 amended: `AppData` equality is the derived field-wise structural
equality — two records are equal iff all nine fields agree (name, exec,
search_string, priority, icon, desktop_file, actions, vars, terminal);
the `(exec, desktop_file)` pair is only the hash key, not the equality. -/
theorem appData_eq_spec (a b : AppData) :
    (appDataEq a b = true ↔
      (a.name = b.name ∧ a.exec = b.exec ∧ a.search_string = b.search_string ∧
       a.priority = b.priority ∧ a.icon = b.icon ∧
       a.desktop_file = b.desktop_file ∧ a.actions = b.actions ∧
       a.vars = b.vars ∧ a.terminal = b.terminal)) ∧
    (appDataHashKey a = appDataHashKey b ↔
      (a.exec = b.exec ∧ a.desktop_file = b.desktop_file)) := by
  constructor
  · rw [appDataEq, decide_eq_true_iff]
    constructor
    · rintro rfl
      exact ⟨rfl, rfl, rfl, rfl, rfl, rfl, rfl, rfl, rfl⟩
    · rintro ⟨h1, h2, h3, h4, h5, h6, h7, h8, h9⟩
      cases a
      cases b
      simp_all
  · rw [appDataHashKey, appDataHashKey, Prod.mk.injEq]

/-- Stem-keyed directory listing: file stem paired with the full manifest
path, as produced by `read_desktop_dir`
(src/loader/application_loader.rs:335-352). -/
abbrev StemMap := List (String × String)

/-- Model of `HashMap::insert` on the stem-keyed map: replace the binding
of the stem when present, otherwise add it. -/
def stemInsert (m : StemMap) (k v : String) : StemMap :=
  if k ∈ m.map Prod.fst then
    m.map (fun e => if e.1 = k then (k, v) else e)
  else m ++ [(k, v)]

/-- Folding a sequence of listing entries into the stem map, as the
`collect` into a `HashMap` and the local-directory overlay loop of
`get_desktop_files` (src/loader/application_loader.rs:364-375). -/
def stemExtend (m : StemMap) (entries : StemMap) : StemMap :=
  entries.foldl (fun acc e => stemInsert acc e.1 e.2) m

/-- Model of `get_desktop_files` (src/loader/application_loader.rs:334-378):
the system directories' entries are collected into a stem-to-path map (in
an arbitrary order, universally quantified in the theorems below), then
the local directory's entries are inserted on top, always overwriting;
the result is the set of paths of the final map. -/
def get_desktop_files (system localEntries : StemMap) : List String :=
  (stemExtend (stemExtend [] system) localEntries).map Prod.snd

theorem stemInsert_mem (m : StemMap) (k v : String) (e : String × String)
    (he : e ∈ stemInsert m k v) : e ∈ m ∨ e = (k, v) := by
  unfold stemInsert at he
  by_cases hk : k ∈ m.map Prod.fst
  · rw [if_pos hk] at he
    obtain ⟨e0, he0, heq⟩ := List.mem_map.mp he
    by_cases hek : e0.1 = k
    · rw [if_pos hek] at heq
      right
      exact heq.symm
    · rw [if_neg hek] at heq
      left
      rw [← heq]
      exact he0
  · rw [if_neg hk] at he
    rcases List.mem_append.mp he with h1 | h2
    · exact Or.inl h1
    · right
      simpa using h2

theorem stemExtend_mem (entries : StemMap) :
    ∀ (m : StemMap) (e : String × String), e ∈ stemExtend m entries →
      e ∈ m ∨ e ∈ entries := by
  induction entries with
  | nil => intro m e he; exact Or.inl he
  | cons e0 es ih =>
    intro m e he
    rw [stemExtend, List.foldl_cons] at he
    rcases ih (stemInsert m e0.1 e0.2) e he with h1 | h2
    · rcases stemInsert_mem m e0.1 e0.2 e h1 with h3 | h4
      · exact Or.inl h3
      · right
        rw [h4]
        exact List.mem_cons_self e0 es
    · exact Or.inr (List.mem_cons_of_mem e0 h2)

theorem stemInsert_binds (m : StemMap) (k v : String) :
    ∀ e ∈ stemInsert m k v, e.1 = k → e.2 = v := by
  intro e he hek
  unfold stemInsert at he
  by_cases hk : k ∈ m.map Prod.fst
  · rw [if_pos hk] at he
    obtain ⟨e0, he0, heq⟩ := List.mem_map.mp he
    by_cases he0k : e0.1 = k
    · rw [if_pos he0k] at heq
      rw [← heq]
    · rw [if_neg he0k] at heq
      rw [← heq] at hek
      exact absurd hek he0k
  · rw [if_neg hk] at he
    rcases List.mem_append.mp he with h1 | h2
    · exact absurd (hek ▸ List.mem_map.mpr ⟨e, h1, rfl⟩) hk
    · have h3 : e = (k, v) := by simpa using h2
      rw [h3]

theorem stemInsert_binds_other (m : StemMap) (k v k2 v2 : String)
    (hne : k ≠ k2) (hold : ∀ e ∈ m, e.1 = k → e.2 = v) :
    ∀ e ∈ stemInsert m k2 v2, e.1 = k → e.2 = v := by
  intro e he hek
  unfold stemInsert at he
  by_cases hk : k2 ∈ m.map Prod.fst
  · rw [if_pos hk] at he
    obtain ⟨e0, he0, heq⟩ := List.mem_map.mp he
    by_cases he0k : e0.1 = k2
    · rw [if_pos he0k] at heq
      rw [← heq] at hek
      exact absurd hek.symm hne
    · rw [if_neg he0k] at heq
      rw [← heq] at hek ⊢
      exact hold e0 he0 hek
  · rw [if_neg hk] at he
    rcases List.mem_append.mp he with h1 | h2
    · exact hold e h1 hek
    · have h3 : e = (k2, v2) := by simpa using h2
      rw [h3] at hek
      exact absurd hek.symm hne

theorem stemInsert_key_mem (m : StemMap) (k v : String) :
    k ∈ (stemInsert m k v).map Prod.fst := by
  unfold stemInsert
  by_cases hk : k ∈ m.map Prod.fst
  · rw [if_pos hk]
    obtain ⟨e0, he0, heq⟩ := List.mem_map.mp hk
    apply List.mem_map.mpr
    refine ⟨(k, v), ?_, rfl⟩
    apply List.mem_map.mpr
    exact ⟨e0, he0, by rw [if_pos heq]⟩
  · rw [if_neg hk, List.map_append]
    apply List.mem_append.mpr
    right
    simp

theorem stemInsert_key_preserved (m : StemMap) (k k2 v2 : String)
    (hk : k ∈ m.map Prod.fst) : k ∈ (stemInsert m k2 v2).map Prod.fst := by
  unfold stemInsert
  by_cases hk2 : k2 ∈ m.map Prod.fst
  · rw [if_pos hk2]
    obtain ⟨e0, he0, heq⟩ := List.mem_map.mp hk
    apply List.mem_map.mpr
    by_cases he0k : e0.1 = k2
    · refine ⟨(k2, v2), ?_, ?_⟩
      · exact List.mem_map.mpr ⟨e0, he0, by rw [if_pos he0k]⟩
      · rw [← heq, he0k]
    · refine ⟨e0, ?_, heq⟩
      exact List.mem_map.mpr ⟨e0, he0, by rw [if_neg he0k]⟩
  · rw [if_neg hk2, List.map_append]
    exact List.mem_append.mpr (Or.inl hk)

theorem stemExtend_binding (es : StemMap) (k v : String) :
    ∀ m : StemMap,
    ((k ∈ m.map Prod.fst ∧ ∀ e ∈ m, e.1 = k → e.2 = v) ∨ (k, v) ∈ es) →
    (∀ e ∈ es, e.1 = k → e.2 = v) →
    k ∈ (stemExtend m es).map Prod.fst ∧
      ∀ e ∈ stemExtend m es, e.1 = k → e.2 = v := by
  induction es with
  | nil =>
    intro m hstart _
    rcases hstart with h1 | h2
    · exact h1
    · exact absurd h2 (by simp)
  | cons e0 es ih =>
    intro m hstart huniq
    rw [stemExtend, List.foldl_cons]
    have huniq2 : ∀ e ∈ es, e.1 = k → e.2 = v := by
      intro e he
      exact huniq e (List.mem_cons_of_mem e0 he)
    by_cases he0k : e0.1 = k
    · have he0v : e0.2 = v := huniq e0 (List.mem_cons_self e0 es) he0k
      apply ih (stemInsert m e0.1 e0.2)
      · left
        constructor
        · rw [he0k, he0v]
          exact stemInsert_key_mem m k v
        · intro e he hek
          have h5 := stemInsert_binds m e0.1 e0.2 e he
          rw [he0k] at h5
          rw [← he0v]
          exact h5 hek
      · exact huniq2
    · apply ih (stemInsert m e0.1 e0.2)
      · rcases hstart with ⟨hkm, hbind⟩ | hmem
        · left
          constructor
          · exact stemInsert_key_preserved m k e0.1 e0.2 hkm
          · exact stemInsert_binds_other m k v e0.1 e0.2
              (fun h => he0k h.symm) hbind
        · rcases List.mem_cons.mp hmem with h1 | h2
          · exact absurd (congrArg Prod.fst h1).symm he0k
          · exact Or.inr h2
      · exact huniq2

theorem stemInsert_keys (m : StemMap) (k v : String) :
    (stemInsert m k v).map Prod.fst = m.map Prod.fst ∨
    (stemInsert m k v).map Prod.fst = m.map Prod.fst ++ [k] := by
  unfold stemInsert
  by_cases hk : k ∈ m.map Prod.fst
  · left
    rw [if_pos hk, List.map_map]
    apply List.map_congr_left
    intro e _
    by_cases hek : e.1 = k
    · rw [Function.comp_apply, if_pos hek, ← hek]
    · rw [Function.comp_apply, if_neg hek]
  · right
    rw [if_neg hk, List.map_append]
    rfl

theorem stemInsert_keys_nodup (m : StemMap) (k v : String)
    (hnd : (m.map Prod.fst).Nodup) :
    ((stemInsert m k v).map Prod.fst).Nodup := by
  rcases stemInsert_keys m k v with h | h
  · rw [h]; exact hnd
  · rw [h]
    have hk : k ∉ m.map Prod.fst := by
      intro hmem
      unfold stemInsert at h
      rw [if_pos hmem] at h
      have hlen := congrArg List.length h
      simp at hlen
    simp [List.nodup_append, hnd, hk]

theorem stemExtend_keys_nodup (es : StemMap) :
    ∀ m : StemMap, (m.map Prod.fst).Nodup →
      ((stemExtend m es).map Prod.fst).Nodup := by
  induction es with
  | nil => intro m h; exact h
  | cons e0 es ih =>
    intro m h
    rw [stemExtend, List.foldl_cons]
    exact ih (stemInsert m e0.1 e0.2) (stemInsert_keys_nodup m e0.1 e0.2 h)

theorem filter_key_absent (m : StemMap) (k : String)
    (hk : k ∉ m.map Prod.fst) :
    m.filter (fun e => decide (e.1 = k)) = [] := by
  rw [List.filter_eq_nil_iff]
  intro e he
  simp only [decide_eq_true_eq]
  intro hek
  exact hk (List.mem_map.mpr ⟨e, he, hek⟩)

theorem keys_nodup_filter_eq (k v : String) : ∀ m : StemMap,
    (m.map Prod.fst).Nodup → k ∈ m.map Prod.fst →
    (∀ e ∈ m, e.1 = k → e.2 = v) →
    (m.filter (fun e => decide (e.1 = k))).map Prod.snd = [v] := by
  intro m
  induction m with
  | nil => intro _ hk _; simp at hk
  | cons e0 m ih =>
    intro hnd hk hbind
    rw [List.map_cons] at hnd hk
    have hnd2 := List.nodup_cons.mp hnd
    by_cases he0 : e0.1 = k
    · have he0v : e0.2 = v := hbind e0 (List.mem_cons_self e0 m) he0
      have hrest : m.filter (fun e => decide (e.1 = k)) = [] := by
        apply filter_key_absent
        rw [← he0]
        exact hnd2.1
      rw [List.filter_cons, if_pos (by simpa using he0), hrest]
      simp [he0v]
    · have hk2 : k ∈ m.map Prod.fst := by
        rcases List.mem_cons.mp hk with h1 | h2
        · exact absurd h1.symm he0
        · exact h2
      have hbind2 : ∀ e ∈ m, e.1 = k → e.2 = v := by
        intro e he
        exact hbind e (List.mem_cons_of_mem e0 he)
      rw [List.filter_cons, if_neg (by simpa using he0)]
      exact ih hnd2.2 hk2 hbind2

/-- C8: when a manifest stem exists both in the local applications
directory and in a system directory, the file set produced by
`get_desktop_files` contains the local directory's path for that stem and
not the system directory's path, and the final stem map holds exactly one
entry for that stem, bound to the local path. -/
theorem get_desktop_files_local_wins
    (system localEntries : StemMap) (stem lp sp : String)
    (hmem : (stem, lp) ∈ localEntries)
    (huniq : ∀ e ∈ localEntries, e.1 = stem → e.2 = lp)
    (hsys : ∀ e ∈ system, e.2 = sp → e.1 = stem)
    (hlocal : ∀ e ∈ localEntries, e.2 ≠ sp)
    (hne : sp ≠ lp) :
    lp ∈ get_desktop_files system localEntries ∧
    sp ∉ get_desktop_files system localEntries ∧
    ((stemExtend (stemExtend [] system) localEntries).filter
      (fun e => decide (e.1 = stem))).map Prod.snd = [lp] := by
  have hbinding := stemExtend_binding localEntries stem lp
    (stemExtend [] system) (Or.inr hmem) huniq
  have hnd : (((stemExtend (stemExtend [] system) localEntries).map
      Prod.fst)).Nodup := by
    apply stemExtend_keys_nodup
    apply stemExtend_keys_nodup
    simp
  have hfil := keys_nodup_filter_eq stem lp
    (stemExtend (stemExtend [] system) localEntries) hnd hbinding.1 hbinding.2
  refine ⟨?_, ?_, hfil⟩
  · have hlpmem : (stem, lp) ∈ (stemExtend (stemExtend [] system)
        localEntries).filter (fun e => decide (e.1 = stem)) := by
      have hlen := congrArg List.length hfil
      simp only [List.length_map, List.length_cons, List.length_nil] at hlen
      obtain ⟨e, he⟩ : ∃ e, (stemExtend (stemExtend [] system)
          localEntries).filter (fun e => decide (e.1 = stem)) = [e] := by
        cases hcase : (stemExtend (stemExtend [] system)
            localEntries).filter (fun e => decide (e.1 = stem)) with
        | nil => rw [hcase] at hlen; simp at hlen
        | cons a l =>
          rw [hcase] at hlen
          simp only [List.length_cons] at hlen
          have hl : l = [] := List.length_eq_zero.mp (by omega)
          subst hl
          exact ⟨a, rfl⟩
      rw [he] at hfil ⊢
      have he1 : e.1 = stem := by
        have := List.of_mem_filter (l := (stemExtend (stemExtend [] system)
          localEntries)) (by rw [he]; exact List.mem_singleton.mpr rfl)
        simpa using this
      have he2 : e.2 = lp := by
        simpa using hfil
      have : e = (stem, lp) := Prod.ext he1 he2
      rw [this]
      exact List.mem_singleton.mpr rfl
    apply List.mem_map.mpr
    exact ⟨(stem, lp), List.mem_of_mem_filter hlpmem, rfl⟩
  · intro hsp
    obtain ⟨e, he, hesp⟩ := List.mem_map.mp hsp
    rcases stemExtend_mem localEntries (stemExtend [] system) e he with h1 | h2
    · rcases stemExtend_mem system [] e h1 with h3 | h4
      · simp at h3
      · have hestem : e.1 = stem := hsys e h4 hesp
        have := hbinding.2 e he hestem
        rw [hesp] at this
        exact hne this
    · exact hlocal e h2 hesp

/-- C8 witness: with `Firefox` present in both a system directory and the
local directory, only the local path survives. -/
theorem get_desktop_files_local_wins_witness :
    "local/Firefox.desktop" ∈ get_desktop_files
      [("Firefox", "sys/Firefox.desktop")]
      [("Firefox", "local/Firefox.desktop")] ∧
    "sys/Firefox.desktop" ∉ get_desktop_files
      [("Firefox", "sys/Firefox.desktop")]
      [("Firefox", "local/Firefox.desktop")] ∧
    ((stemExtend (stemExtend [] [("Firefox", "sys/Firefox.desktop")])
      [("Firefox", "local/Firefox.desktop")]).filter
      (fun e => decide (e.1 = "Firefox"))).map Prod.snd
      = ["local/Firefox.desktop"] :=
  get_desktop_files_local_wins
    [("Firefox", "sys/Firefox.desktop")]
    [("Firefox", "local/Firefox.desktop")]
    "Firefox" "local/Firefox.desktop" "sys/Firefox.desktop"
    (by decide) (by decide) (by decide) (by decide) (by decide)

/-- Visibility classification (src/utils/config/mod.rs:280-286). -/
inductive HomeType where
  | Search
  | OnlyHome
  | Home
  | Persist
deriving DecidableEq

/-- Candidate snapshot entry as consulted by `filter_and_sort`: the alias,
priority, visibility class, content-based override and lowercased search
string of one `RenderableChild` (src/ui/main_window/mod.rs:130-174).
Priorities are exact rationals; strings are byte strings. -/
structure Candidate where
  aliasStr : Option Bytes
  priority : ℚ
  home : HomeType
  basedShow : Bytes → Option Bool
  search : Bytes

/-- Byte string of the universal mode name "all". -/
def allMode : Bytes := [97, 108, 108]

/-- Model of the filter closure of `filter_and_sort`
(src/ui/main_window/mod.rs:133-172), rules 1-6 in source order; the nested
early-return of rule 1 is rendered as a conjunction. -/
def passesFilter (mode : Bytes) (isHome : Bool) (query : Bytes)
    (c : Candidate) : Bool :=
  if some mode ≠ c.aliasStr ∧ (mode ≠ allMode ∨ c.priority < 1) then false
  else if c.home = HomeType.Persist then true
  else match c.basedShow query with
  | some b => b
  | none =>
    if isHome = false ∧ c.home = HomeType.OnlyHome then false
    else if isHome = true ∧ c.home = HomeType.Search then false
    else fuzzy_match c.search query

/-- Model of the published result of `filter_and_sort`
(src/ui/main_window/mod.rs:101-200): indices of the snapshot candidates
passing the filter, sorted ascending by priority, priorities stripped. -/
def filter_and_sort (mode query : Bytes) (data : List Candidate) : List Nat :=
  let isHome := query.isEmpty && decide (mode = allMode)
  let results := (data.enum.filter
    (fun ie => passesFilter mode isHome query ie.2)).map
      (fun ie => (ie.1, ie.2.priority))
  let sorted := results.mergeSort (fun a b => decide (a.2 ≤ b.2))
  sorted.map Prod.fst

theorem mem_enum_iff {α : Type} (l : List α) (i : Nat) (c : α) :
    (i, c) ∈ l.enum ↔ ∃ h : i < l.length, l.get ⟨i, h⟩ = c := by
  rw [List.mem_iff_getElem]
  constructor
  · rintro ⟨n, hn, heq⟩
    rw [List.getElem_enum] at heq
    obtain ⟨h1, h2⟩ := (Prod.mk.injEq _ _ _ _).mp heq
    subst h1
    have hn2 : n < l.length := by rw [← List.enum_length]; exact hn
    refine ⟨hn2, ?_⟩
    rw [List.get_eq_getElem]
    exact h2
  · rintro ⟨h, hget⟩
    have hn : i < l.enum.length := by rw [List.enum_length]; exact h
    refine ⟨i, hn, ?_⟩
    rw [List.getElem_enum]
    rw [List.get_eq_getElem] at hget
    rw [hget]

theorem passesFilter_rule6 (mode query : Bytes) (isHome : Bool)
    (c : Candidate)
    (hgate : c.aliasStr = some mode ∨ (mode = allMode ∧ 1 ≤ c.priority))
    (hpersist : c.home ≠ HomeType.Persist)
    (hbased : c.basedShow query = none)
    (honly : ¬(isHome = false ∧ c.home = HomeType.OnlyHome))
    (hsearch : ¬(isHome = true ∧ c.home = HomeType.Search)) :
    passesFilter mode isHome query c = fuzzy_match c.search query := by
  have hrule1 : ¬(some mode ≠ c.aliasStr ∧ (mode ≠ allMode ∨ c.priority < 1)) := by
    rintro ⟨h1, h2⟩
    rcases hgate with hg | ⟨hg1, hg2⟩
    · exact h1 hg.symm
    · rcases h2 with h3 | h4
      · exact h3 hg1
      · linarith
  rw [passesFilter, if_neg hrule1, if_neg hpersist, hbased]
  show (if isHome = false ∧ c.home = HomeType.OnlyHome then false
    else if isHome = true ∧ c.home = HomeType.Search then false
    else fuzzy_match c.search query) = fuzzy_match c.search query
  rw [if_neg honly, if_neg hsearch]

theorem filter_and_sort_mem (mode query : Bytes) (data : List Candidate)
    (i : Nat) (hi : i < data.length) :
    i ∈ filter_and_sort mode query data ↔
      passesFilter mode (query.isEmpty && decide (mode = allMode)) query
        (data.get ⟨i, hi⟩) = true := by
  unfold filter_and_sort
  constructor
  · intro hmem
    obtain ⟨p, hp, hpi⟩ := List.mem_map.mp hmem
    have hp2 : p ∈ (data.enum.filter (fun ie =>
        passesFilter mode (query.isEmpty && decide (mode = allMode))
          query ie.2)).map (fun ie => (ie.1, ie.2.priority)) :=
      (List.mergeSort_perm _ _).mem_iff.mp hp
    obtain ⟨q, hq, hqp⟩ := List.mem_map.mp hp2
    obtain ⟨hq1, hq2⟩ := List.mem_filter.mp hq
    have hqi : q.1 = i := by
      rw [← hpi, ← hqp]
    have hqeta : (q.1, q.2) ∈ data.enum := by
      rw [Prod.mk.eta]
      exact hq1
    rw [hqi] at hqeta
    obtain ⟨h, hget⟩ := (mem_enum_iff data i q.2).mp hqeta
    rw [← hget] at hq2
    exact hq2
  · intro hpass
    apply List.mem_map.mpr
    refine ⟨(i, (data.get ⟨i, hi⟩).priority), ?_, rfl⟩
    apply (List.mergeSort_perm _ _).mem_iff.mpr
    apply List.mem_map.mpr
    refine ⟨(i, data.get ⟨i, hi⟩), ?_, rfl⟩
    apply List.mem_filter.mpr
    constructor
    · exact (mem_enum_iff data i (data.get ⟨i, hi⟩)).mpr ⟨hi, rfl⟩
    · exact hpass

/-- C5: a candidate that reaches filtering rule 6 — it passes the mode
gate, its visibility class is not Persist, it declares no content-based
override, and it is not excluded by the OnlyHome/Search query-context
rules — appears in the published result list of `filter_and_sort` iff the
fuzzy matcher accepts its lowercased search string against the lowercased
query; in particular such a candidate that does not fuzzy-match never
appears, regardless of its priority. -/
theorem filter_and_sort_rule6_spec (mode query : Bytes)
    (data : List Candidate) (i : Nat) (hi : i < data.length)
    (hgate : (data.get ⟨i, hi⟩).aliasStr = some mode ∨
      (mode = allMode ∧ 1 ≤ (data.get ⟨i, hi⟩).priority))
    (hpersist : (data.get ⟨i, hi⟩).home ≠ HomeType.Persist)
    (hbased : (data.get ⟨i, hi⟩).basedShow query = none)
    (honly : (query.isEmpty && decide (mode = allMode)) = false →
      (data.get ⟨i, hi⟩).home ≠ HomeType.OnlyHome)
    (hsearch : (query.isEmpty && decide (mode = allMode)) = true →
      (data.get ⟨i, hi⟩).home ≠ HomeType.Search) :
    i ∈ filter_and_sort mode query data ↔
      fuzzy_match (data.get ⟨i, hi⟩).search query = true := by
  rw [filter_and_sort_mem mode query data i hi]
  rw [passesFilter_rule6 mode query (query.isEmpty && decide (mode = allMode))
    (data.get ⟨i, hi⟩) hgate hpersist hbased
    (fun h => honly h.1 h.2) (fun h => hsearch h.1 h.2)]

/-- C5 witness: a two-candidate snapshot under mode "all" and query "f"
(byte 102): the matching candidate is listed, evaluated through the spec
theorem at concrete inputs. -/
theorem filter_and_sort_rule6_spec_witness :
    (0 ∈ filter_and_sort allMode [102]
      [⟨none, 1, HomeType.Search, fun _ => none, [102, 111, 120]⟩] ↔
      fuzzy_match [102, 111, 120] [102] = true) := by
  have h := filter_and_sort_rule6_spec allMode [102]
    [⟨none, 1, HomeType.Search, fun _ => none, [102, 111, 120]⟩] 0
    (by decide) (Or.inr ⟨rfl, by norm_num⟩) (by decide) rfl
    (fun _ => by decide) (fun h => by simp at h)
  exact h

end Sherlock
